import Mathlib

/-!
Shallow embedding of `PhotoNameChecker.py` (filename parsing, name
normalization, roster table building, mismatch/missing reporting).
Strings are modelled as `List Char`; Python regular expressions are
modelled by explicit scanners with the same leftmost-match semantics.
-/

namespace PhotoNameChecker

/-- Characters counted as whitespace by Python's `\s`, `str.split` defaults and
`str.strip` (ASCII part of the Unicode whitespace class). -/
def isPySpace (c : Char) : Bool :=
  decide (c.toNat = 32 ∨ c.toNat = 9 ∨ c.toNat = 10 ∨ c.toNat = 13 ∨
    c.toNat = 11 ∨ c.toNat = 12)

/-- Characters matched by Python's `\w` (word characters): ASCII letters,
digits, underscore, and the Latin-1/Latin-Extended letter block (excluding
the multiplication and division signs), which is the part of the Unicode
word class exercised by roster names. -/
def isWordChar (c : Char) : Bool :=
  decide ((97 ≤ c.toNat ∧ c.toNat ≤ 122) ∨ (65 ≤ c.toNat ∧ c.toNat ≤ 90) ∨
    (48 ≤ c.toNat ∧ c.toNat ≤ 57) ∨ c.toNat = 95 ∨
    (192 ≤ c.toNat ∧ c.toNat ≤ 591 ∧ c.toNat ≠ 215 ∧ c.toNat ≠ 247))

/-- The quote class of `normalize`'s nickname regex `(["“”‘’\']).*?\1`:
straight double quote, curly double quotes, curly single quotes, apostrophe. -/
def isQuoteN (c : Char) : Bool :=
  decide (c.toNat = 34 ∨ c.toNat = 8220 ∨ c.toNat = 8221 ∨ c.toNat = 8216 ∨
    c.toNat = 8217 ∨ c.toNat = 39)

/-- The quote class `["“”‘’]` used by the nickname patterns in
`scrape_player_names` and `check_mismatches_and_missing` (no apostrophe). -/
def isQuoteD (c : Char) : Bool :=
  decide (c.toNat = 34 ∨ c.toNat = 8220 ∨ c.toNat = 8221 ∨ c.toNat = 8216 ∨
    c.toNat = 8217)

/-- Combining diacritical marks (U+0300–U+036F), dropped by the accent-folding
step of `normalize` after NFD decomposition. -/
def isCombining (c : Char) : Bool :=
  decide (768 ≤ c.toNat ∧ c.toNat ≤ 879)

/-- One character of Python `str.lower()` on the Basic Latin range
(`A`–`Z` map to `a`–`z`; everything else in our alphabet is unchanged). -/
def lowerChar (c : Char) : Char :=
  if h : 65 ≤ c.toNat ∧ c.toNat ≤ 90 then
    Char.ofNatAux (c.toNat + 32) (Or.inl (by omega))
  else c

/-- Python `str.lower()`. -/
def pyLower (s : List Char) : List Char := s.map lowerChar

/-- Python `str.strip()`: drop leading and trailing whitespace. -/
def pyStrip (s : List Char) : List Char :=
  ((s.dropWhile isPySpace).reverse.dropWhile isPySpace).reverse

/-- Helper for `collapseWs`: the flag records whether the previous character
was whitespace (i.e. we are inside a run already replaced by one space). -/
def collapseWsAux : Bool → List Char → List Char
  | _, [] => []
  | inWs, c :: rest =>
    if isPySpace c then
      if inWs then collapseWsAux true rest
      else ' ' :: collapseWsAux true rest
    else c :: collapseWsAux false rest

/-- Python `re.sub(r"\s+", " ", s)`: every maximal whitespace run becomes a
single space. -/
def collapseWs (s : List Char) : List Char := collapseWsAux false s

/-- Scan for the closing quote of `normalize`'s nickname regex: the first
occurrence of the same quote character `q`, unreachable past a newline
(`.` does not match `\n`).  Returns the text after the closing quote. -/
def findClose (q : Char) : List Char → Option (List Char)
  | [] => none
  | c :: rest =>
    if c = q then some rest
    else if c = '\n' then none
    else findClose q rest

/-- Fuelled scanner for `re.sub(r'(["“”‘’\']).*?\1', '', s)`: at each quote
character, non-greedily drop up to the matching close quote; an unmatched
opener is kept and scanning resumes at the next character.  The fuel only
bounds recursion depth; `stripQuoted` supplies enough fuel. -/
def sqWithFuel : Nat → List Char → List Char
  | 0, l => l
  | _ + 1, [] => []
  | fuel + 1, c :: rest =>
    if isQuoteN c then
      match findClose c rest with
      | some rest2 => sqWithFuel fuel rest2
      | none => c :: sqWithFuel fuel rest
    else c :: sqWithFuel fuel rest

/-- The quoted-nickname removal step of `normalize`. -/
def stripQuoted (s : List Char) : List Char := sqWithFuel s.length s

/-- Does a word boundary (`\b`) hold right after a suffix token, i.e. is the
remaining text empty or starting with a non-word character? -/
def boundaryAfter : List Char → Bool
  | [] => true
  | c :: _ => !isWordChar c

/-- Try to match one alternative of `\b(jr|sr|ii|iii|iv|v)\b` at the current
position: the token's characters followed by a word boundary.  Returns the
remaining text after the token. -/
def tryTok (tok s : List Char) : Option (List Char) :=
  if tok <+: s ∧ boundaryAfter (s.drop tok.length) = true then
    some (s.drop tok.length)
  else none

/-- The alternation `(jr|sr|ii|iii|iv|v)` tried in the regex's order with
backtracking over the trailing `\b` (so `ii` falls through to `iii`). -/
def matchSuffixAt (s : List Char) : Option (List Char) :=
  match tryTok ['j', 'r'] s with
  | some r => some r
  | none =>
    match tryTok ['s', 'r'] s with
    | some r => some r
    | none =>
      match tryTok ['i', 'i'] s with
      | some r => some r
      | none =>
        match tryTok ['i', 'i', 'i'] s with
        | some r => some r
        | none =>
          match tryTok ['i', 'v'] s with
          | some r => some r
          | none => tryTok ['v'] s

/-- Fuelled scanner for `re.sub(r"\b(jr|sr|ii|iii|iv|v)\b", "", s)`.  The
flag records whether a word boundary holds before the current position
(start of string, or previous character non-word).  All tokens start with a
word character, so a leading `\b` holds exactly when the flag does. -/
def rsWithFuel : Nat → Bool → List Char → List Char
  | 0, _, l => l
  | _ + 1, _, [] => []
  | fuel + 1, atB, c :: rest =>
    if atB then
      match matchSuffixAt (c :: rest) with
      | some r => rsWithFuel fuel false r
      | none => c :: rsWithFuel fuel (!isWordChar c) rest
    else c :: rsWithFuel fuel (!isWordChar c) rest

/-- The suffix-token removal step of `normalize`. -/
def removeSuffixes (s : List Char) : List Char := rsWithFuel s.length true s

/-- Lookup in a character-keyed association list. -/
def dlookupChar : List (Char × List Char) → Char → Option (List Char)
  | [], _ => none
  | p :: rest, c => if p.1 = c then some p.2 else dlookupChar rest c

/-- NFD decompositions of the precomposed Latin letters appearing in roster
names: base letter followed by a combining mark. -/
def decompTable : List (Char × List Char) :=
  [('á', ['a', Char.ofNat 769]), ('é', ['e', Char.ofNat 769]),
   ('í', ['i', Char.ofNat 769]), ('ó', ['o', Char.ofNat 769]),
   ('ú', ['u', Char.ofNat 769]), ('ñ', ['n', Char.ofNat 771]),
   ('ü', ['u', Char.ofNat 776]), ('ç', ['c', Char.ofNat 807])]

/-- `unicodedata.normalize("NFD", ·)` on one character. -/
def decompChar (c : Char) : List Char :=
  match dlookupChar decompTable c with
  | some l => l
  | none => [c]

/-- The accent-folding step of `normalize`: NFD-decompose, then drop
combining marks. -/
def nfdStrip (s : List Char) : List Char :=
  ((s.map decompChar).flatten).filter (fun c => !isCombining c)

/-- A character kept by `re.sub(r"[^\w\s-]", "", s)`: word character,
whitespace, or hyphen. -/
def keepChar (c : Char) : Bool :=
  isWordChar c || isPySpace c || decide (c.toNat = 45)

/-- The punctuation-removal step of `normalize`. -/
def keepFilter (s : List Char) : List Char := s.filter keepChar

/-- `normalize` from `PhotoNameChecker.py`: lowercase, strip quoted
nicknames, remove suffix tokens, fold accents, drop punctuation, collapse
whitespace and trim. -/
def normalize (s : List Char) : List Char :=
  pyStrip (collapseWs (keepFilter (nfdStrip (removeSuffixes (stripQuoted (pyLower s))))))

/-- `os.path.basename` on a POSIX path: the text after the last slash. -/
def basename (s : List Char) : List Char :=
  (s.reverse.takeWhile (fun c => c ≠ '/')).reverse

/-- Number of occurrences of a character, Python `str.count` for a
single-character needle. -/
def countChar (c : Char) (s : List Char) : Nat :=
  (s.filter (fun x => x = c)).length

/-- Python `str.split(sep)` for a single-character separator: the separators
are dropped and empty segments are kept (`"".split("_") == [""]`). -/
def splitOnChar (sep : Char) : List Char → List (List Char)
  | [] => [[]]
  | c :: rest =>
    match splitOnChar sep rest with
    | [] => [[]]
    | h :: t => if c = sep then [] :: h :: t else (c :: h) :: t

/-- Python `str.split(" ", 1)`: the text before the first space, and
(if a space exists) the text after it. -/
def split1 : List Char → List Char × Option (List Char)
  | [] => ([], none)
  | c :: rest =>
    if c = ' ' then ([], some rest)
    else
      let p := split1 rest
      (c :: p.1, p.2)

/-- One parsed filename record, the dict built by `parse_filenames`. -/
structure Candidate where
  filename : List Char
  school : Option (List Char)
  last : Option (List Char)
  first : Option (List Char)
  format_valid : Bool
  format_msg : Option (List Char)
deriving DecidableEq

/-- The reason string for an underscore-count violation. -/
def msgUnderscores : List Char :=
  "Must have exactly two underscores: team_last_first.png".data

/-- The reason string for an empty last/first segment. -/
def msgMissingName : List Char := "Missing last or first name".data

/-- Python `name[:-4]`: the filename with its four extension characters
removed. -/
def pngBase (name : List Char) : List Char := name.take (name.length - 4)

/-- The loop body of `parse_filenames`: `none` when the filename does not end
in `.png` case-insensitively (such files produce no candidate at all). -/
def parseOne (file : List Char) : Option Candidate :=
  let name := basename file
  if (".png".data).isSuffixOf (pyLower name) then
    let base := pngBase name
    if countChar '_' base ≠ 2 then
      some { filename := name, school := none, last := none, first := none,
             format_valid := false, format_msg := some msgUnderscores }
    else
      let parts := splitOnChar '_' base
      if parts.length ≠ 3 ∨ pyStrip (parts.getD 1 []) = [] ∨
          pyStrip (parts.getD 2 []) = [] then
        some { filename := name, school := none, last := none, first := none,
               format_valid := false, format_msg := some msgMissingName }
      else
        some { filename := name,
               school := some (pyStrip (pyLower (parts.getD 0 []))),
               last := some (pyStrip (pyLower (parts.getD 1 []))),
               first := some (pyStrip (pyLower (parts.getD 2 []))),
               format_valid := true, format_msg := none }
  else none

/-- `parse_filenames` from `PhotoNameChecker.py`. -/
def parse_filenames (files : List (List Char)) : List Candidate :=
  files.filterMap parseOne

/-- Lookup in a string-keyed association list, the membership/indexing model
of a Python dict. -/
def dlookup {α : Type} : List (List Char × α) → List Char → Option α
  | [], _ => none
  | p :: rest, k => if p.1 = k then some p.2 else dlookup rest k

/-- Python dict assignment `d[k] = v`: overwrite in place if the key exists,
otherwise append (insertion order preserved). -/
def dinsert {α : Type} (d : List (List Char × α)) (k : List Char) (v : α) :
    List (List Char × α) :=
  if (dlookup d k).isSome then
    d.map (fun p => if p.1 = k then (k, v) else p)
  else d ++ [(k, v)]

/-- Scanner for `\s+(.+)` after the closing quote in the player-name regex:
at least one whitespace character, then at least one non-newline character;
greedy `\s+` with backtracking.  Returns the `(.+)` group. -/
def wsAnyGo : List Char → Option (List Char)
  | [] => none
  | d :: rest =>
    if isPySpace d then
      match wsAnyGo rest with
      | some g => some g
      | none =>
        if d ≠ '\n' then some ((d :: rest).takeWhile (fun x => x ≠ '\n'))
        else none
    else
      if d ≠ '\n' then some ((d :: rest).takeWhile (fun x => x ≠ '\n'))
      else none

/-- Entry point of the `\s+(.+)` scanner: the head must be whitespace. -/
def wsAnySplit : List Char → Option (List Char)
  | [] => none
  | c :: rest => if isPySpace c then wsAnyGo rest else none

/-- Scanner for `(.+?)["“”‘’]\s+(.+)`: grow the lazy group one character at a
time (never past a newline), and at each candidate closing quote try to
complete the match; on failure the quote joins the lazy group.  Returns the
nickname group and the last-name group. -/
def nickClose (acc : List Char) : List Char → Option (List Char × List Char)
  | [] => none
  | c :: rest =>
    if isQuoteD c ∧ acc ≠ [] then
      match wsAnySplit rest with
      | some g3 => some (acc.reverse, g3)
      | none => if c = '\n' then none else nickClose (c :: acc) rest
    else if c = '\n' then none else nickClose (c :: acc) rest

/-- `re.search(r'(\S+)\s+["“”‘’](.+?)["“”‘’]\s+(.+)', name)` from
`scrape_player_names`: leftmost match, returning the groups
(first name, nickname, last name).  At a match start the greedy `\S+` must
be the maximal non-space run (shrinking it puts a non-space under `\s+`),
the `\s+` runs to the next non-space which must open a quote, and the inner
scanners handle the lazy group's backtracking. -/
def matchNickFull : List Char → Option (List Char × List Char × List Char)
  | [] => none
  | c :: rest =>
    if isPySpace c then matchNickFull rest
    else
      let g1 := (c :: rest).takeWhile (fun x => !isPySpace x)
      let afterRun := (c :: rest).dropWhile (fun x => !isPySpace x)
      let wsr := afterRun.takeWhile isPySpace
      let t := afterRun.dropWhile isPySpace
      match t with
      | [] => matchNickFull rest
      | q1 :: t2 =>
        if wsr ≠ [] ∧ isQuoteD q1 then
          match nickClose [] t2 with
          | some p => some (g1, p.1, p.2)
          | none => matchNickFull rest
        else matchNickFull rest

/-- The player tables built by `scrape_player_names`: normalized key to
original display name. -/
structure PTables where
  primary : List (List Char × List Char)
  nickname : List (List Char × List Char)
deriving DecidableEq

/-- The per-name classification loop of `scrape_player_names` (lines
166–174): a name with an embedded quoted nickname registers both a primary
key and a nickname key; otherwise only a primary key. -/
def addName (t : PTables) (name : List Char) : PTables :=
  match matchNickFull name with
  | some (f, n, l) =>
    { primary := dinsert t.primary (normalize (f ++ ' ' :: l)) name,
      nickname := dinsert t.nickname (normalize (n ++ ' ' :: l)) name }
  | none => { t with primary := dinsert t.primary (normalize name) name }

/-- Build the player lookup tables from the scraped display names. -/
def buildPlayerTables (names : List (List Char)) : PTables :=
  names.foldl addName { primary := [], nickname := [] }

/-- One staff entry: `{"name": ..., "title": ...}` from `scrape_staff_names`. -/
structure StaffInfo where
  name : List Char
  title : List Char
deriving DecidableEq

/-- One output row of `check_mismatches_and_missing`.  Rows appended in the
existing-files loop carry no `suggestion` key, which surfaces as an absent
value in the DataFrame; missing-player rows carry one. -/
structure Row where
  filename : Option (List Char)
  first : List Char
  last : List Char
  status : List Char
  suggestion : Option (List Char)
  name : Option (List Char)
deriving DecidableEq

/-- `re.search(r'(\S+)\s+["“”‘’]', name)` from the nickname branch of
`check_mismatches_and_missing`: leftmost non-space run followed by
whitespace and an opening quote; returns group 1. -/
def findNickShortFirst : List Char → Option (List Char)
  | [] => none
  | c :: rest =>
    if isPySpace c then findNickShortFirst rest
    else
      let afterRun := (c :: rest).dropWhile (fun x => !isPySpace x)
      let wsr := afterRun.takeWhile isPySpace
      let t := afterRun.dropWhile isPySpace
      if wsr ≠ [] ∧ (t.head?.elim false isQuoteD) then
        some ((c :: rest).takeWhile (fun x => !isPySpace x))
      else findNickShortFirst rest

/-- Status string of a matched player. -/
def msgMatched : List Char := "✅".data

/-- Status string of a school-prefix mismatch. -/
def msgSchool : List Char := "❌ School prefix mismatch".data

/-- Status string of a nickname used instead of the first name. -/
def msgNickname : List Char := "❌ Nickname used instead of First Name".data

/-- Status string of a name not found in the roster. -/
def msgNotInRoster : List Char := "❌ Name not in roster".data

/-- Status string of a staff member misfiled as a player. -/
def msgStaff (title : List Char) : List Char :=
  "❌ Not a Player (".data ++ title ++ ")".data

/-- The local variables `status`, `suggestion`, `roster_name` computed by the
existing-files loop of `check_mismatches_and_missing` for one entry
(lines 441–479), in the source's rule order: invalid format, staff, school
prefix, primary, nickname, not in roster. -/
def step1Locals (pk nk : List (List Char × List Char))
    (sd : List (List Char × StaffInfo)) (pfx : List Char) (e : Candidate) :
    List Char × Option (List Char) × Option (List Char) :=
  let rawLast := e.last.getD []
  let rawFirst := e.first.getD []
  if !e.format_valid then
    (e.format_msg.getD ("Invalid filename format".data), none, none)
  else
    let key := normalize (rawFirst ++ ' ' :: rawLast)
    match dlookup sd key with
    | some si => (msgStaff si.title, none, none)
    | none =>
      if e.school ≠ some (pyLower pfx) then (msgSchool, none, none)
      else
        match dlookup pk key with
        | some rn => (msgMatched, none, some rn)
        | none =>
          match dlookup nk key with
          | some orn =>
            match findNickShortFirst orn with
            | some g1 =>
              (msgNickname,
               some (pfx ++ '_' :: rawLast ++ '_' :: normalize g1 ++ ".png".data),
               some orn)
            | none => (msgNickname, none, some orn)
          | none => (msgNotInRoster, none, none)

/-- The dict appended to `data` for one existing file: note the computed
`suggestion` local is not part of it. -/
def step1Row (pk nk : List (List Char × List Char))
    (sd : List (List Char × StaffInfo)) (pfx : List Char) (e : Candidate) :
    Row :=
  let ls := step1Locals pk nk sd pfx e
  { filename := some e.filename, first := e.first.getD [],
    last := e.last.getD [], status := ls.1, suggestion := none,
    name := ls.2.2 }

/-- The dict appended by `find_missing_players` for one missing roster
player: split the display name at its first space, build the suggested
filename, degrade when there is no last-name part. -/
def rowOfMissing (pfx rname : List Char) : Row :=
  let p := split1 rname
  let first := p.1
  let last := (p.2).getD []
  let suggestion :=
    if last ≠ [] then pfx ++ '_' :: pyLower last ++ '_' :: pyLower first ++ ".png".data
    else pfx ++ '_' :: pyLower first ++ ".png".data
  { filename := none, first := pyLower first,
    last := if last ≠ [] then pyLower last else [],
    status := "⚠️ Missing".data, suggestion := some suggestion,
    name := some rname }

/-- The set of normalized name keys of format-valid, non-staff candidates
(lines 320–326 of `find_missing_players`). -/
def existingKeys (parsed : List Candidate)
    (sd : List (List Char × StaffInfo)) : List (List Char) :=
  (parsed.filter (fun e => e.format_valid)).filterMap fun e =>
    let n := normalize (e.first.getD [] ++ ' ' :: e.last.getD [])
    if (dlookup sd n).isSome then none else some n

/-- `find_missing_players` from `PhotoNameChecker.py`: emit a missing row for
every primary-table player whose key is not a staff key, whose display name
is not a denylisted pseudo-entry, and whose key has no matching candidate. -/
def find_missing_players (parsed : List Candidate)
    (pk : List (List Char × List Char)) (sd : List (List Char × StaffInfo))
    (pfx : List Char) : List Row :=
  let existing := existingKeys parsed sd
  pk.filterMap fun p =>
    if (dlookup sd p.1).isSome then none
    else if pyLower p.2 = "full bio".data ∨ pyLower p.2 = "view full bio".data then
      none
    else if p.1 ∈ existing then none
    else some (rowOfMissing pfx p.2)

/-- `check_mismatches_and_missing` from `PhotoNameChecker.py`: the parsed
list is first filtered to format-valid entries, each surviving entry gets
one row, and the missing-player rows are appended. -/
def check_mismatches_and_missing (parsed : List Candidate)
    (pk nk : List (List Char × List Char))
    (sd : List (List Char × StaffInfo)) (pfx : List Char) : List Row :=
  let parsedV := parsed.filter (fun e => e.format_valid)
  parsedV.map (step1Row pk nk sd pfx) ++ find_missing_players parsedV pk sd pfx

/-- No two adjacent whitespace characters (the shape of `collapseWs` output). -/
def noDoubleWs : List Char → Prop
  | a :: b :: rest =>
    ¬(isPySpace a = true ∧ isPySpace b = true) ∧ noDoubleWs (b :: rest)
  | _ => True

/-- Every whitespace character in the list is a plain space. -/
def allWsSpace (l : List Char) : Prop :=
  ∀ c ∈ l, isPySpace c = true → c = ' '

/-- A character already in `normalize`'s output alphabet: fixed by
lowercasing, not a quote, NFD-stable and non-combining, and kept by the
punctuation filter. -/
def canonChar (c : Char) : Prop :=
  lowerChar c = c ∧ isQuoteN c = false ∧ decompChar c = [c] ∧
    isCombining c = false ∧ keepChar c = true

/-- The roster display name of the Scenario 2 nickname test. -/
def c7Display : List Char := "John \"Jonathan\" Smith".data

/-- The player tables the code builds from the Scenario 2 roster. -/
def c7Tables : PTables := buildPlayerTables [c7Display]

/-- The parsed candidate list of the Scenario 2 filename. -/
def c7Parsed : List Candidate := parse_filenames ["cal_smith_jonathan.png".data]

/-- A concrete format-valid candidate used to instantiate the matcher
theorems. -/
def wCand : Candidate :=
  { filename := "cal_smith_john.png".data, school := some "cal".data,
    last := some "smith".data, first := some "john".data,
    format_valid := true, format_msg := none }

/-- A concrete primary table whose single key collides with `wStaff`. -/
def wPrimary : List (List Char × List Char) :=
  [("john smith".data, "John Smith".data)]

/-- A concrete staff table keyed by `wCand`'s normalized name. -/
def wStaff : List (List Char × StaffInfo) :=
  [("john smith".data, { name := "John Smith".data, title := "Coach".data })]

/-- A concrete nickname table whose display name has no quoted-nickname
shape. -/
def wNick : List (List Char × List Char) := [("john smith".data, "Bob".data)]

/-- Splitting on a separator yields one more segment than there are
separator occurrences. -/
theorem splitOnChar_length (sep : Char) (l : List Char) :
    (splitOnChar sep l).length = countChar sep l + 1 := by
  induction l with
  | nil => simp [splitOnChar, countChar]
  | cons c rest ih =>
    rw [splitOnChar]
    cases h : splitOnChar sep rest with
    | nil => simp [h] at ih
    | cons hd tl =>
      by_cases hc : c = sep
      · simp only [hc, if_pos rfl]
        rw [h] at ih
        simp [countChar] at ih ⊢
        omega
      · simp only [if_neg hc]
        rw [h] at ih
        simp [countChar, hc] at ih ⊢
        omega

/-- The staff status string never equals the matched status string (their
first characters differ). -/
theorem msgStaff_ne_msgMatched (t : List Char) : msgStaff t ≠ msgMatched := by
  intro h
  have h1 : (msgStaff t).head? = some '❌' := rfl
  rw [h] at h1
  exact absurd (Option.some.inj h1) (by decide)

/-- C3 (counterexample): `normalize` is not idempotent.  On `"i#i"` the
punctuation filter deletes `#` and glues the two `i`s into the standalone
suffix token `ii`, which a second pass removes: `normalize "i#i" = "ii"`
but `normalize "ii" = ""`. -/
theorem claim_C3_counterexample :
    ¬ (normalize (normalize "i#i".data) = normalize "i#i".data) ∧
    normalize "i#i".data = "ii".data ∧ normalize "ii".data = [] := by decide

/-- C4 (counterexample): a filename whose school segment is empty is still
marked format-valid — `parse_filenames` checks only the last and first
segments, so the claim's "including an empty school segment" fails. -/
theorem claim_C4_counterexample :
    parse_filenames ["_smith_john.png".data] =
      [{ filename := "_smith_john.png".data, school := some [],
         last := some "smith".data, first := some "john".data,
         format_valid := true, format_msg := none }] := by decide

/-- C8 (counterexample): the canonical `school_last_first_nick.png` shape
(three underscores in the base) is rejected as format-invalid with the
two-underscore reason, so no format-valid candidate with an embedded
nickname token is ever produced. -/
theorem claim_C8_counterexample :
    parse_filenames ["cal_smith_john_nick.png".data] =
      [{ filename := "cal_smith_john_nick.png".data, school := none,
         last := none, first := none, format_valid := false,
         format_msg := some msgUnderscores }] := by decide

/-- C5 (counterexample): a primary-table entry whose display name lowercases
to `"Full Bio"` is silently skipped by `find_missing_players` even though
its key is absent from the candidate key set, so no MissingEntry is
emitted for it. -/
theorem claim_C5_counterexample :
    existingKeys [] [] = [] ∧
    find_missing_players [] [("x".data, "Full Bio".data)] [] "cal".data = [] := by
  decide

/-- C1: the total-coverage claim is right about parsing (exactly one
candidate per `.png` input, none for others) but the report drops
format-invalid candidates: `check_mismatches_and_missing` filters them out
before building rows (its invalid-format branch is dead code), so
`bad.png` receives no verdict row. -/
theorem claim_C1_invalid_candidate_has_no_row :
    (parse_filenames ["bad.png".data, "notes.txt".data,
        "cal_smith_john.png".data]).map
        (fun c => (c.filename, c.format_valid)) =
      [("bad.png".data, false), ("cal_smith_john.png".data, true)] ∧
    check_mismatches_and_missing
        (parse_filenames ["bad.png".data, "notes.txt".data,
          "cal_smith_john.png".data]) [] [] [] "cal".data =
      [{ filename := some "cal_smith_john.png".data, first := "john".data,
         last := "smith".data, status := msgNotInRoster, suggestion := none,
         name := none }] := by decide

/-- C7: in the Scenario 2 nickname run the candidate's key `jonathan smith`
hits the nickname table and the local variables compute the claimed
suggestion `cal_smith_john.png`, but the row appended to the report has no
suggestion field (the computed local is dropped), carrying only the status
and the matched display name. -/
theorem claim_C7_suggestion_computed_but_dropped :
    c7Tables.nickname = [("jonathan smith".data, c7Display)] ∧
    c7Tables.primary = [("john smith".data, c7Display)] ∧
    (c7Parsed.map fun e =>
        step1Locals c7Tables.primary c7Tables.nickname [] "cal".data e) =
      [(msgNickname, some "cal_smith_john.png".data, some c7Display)] ∧
    (check_mismatches_and_missing c7Parsed c7Tables.primary
        c7Tables.nickname [] "cal".data).head? =
      some { filename := some "cal_smith_jonathan.png".data,
             first := "jonathan".data, last := "smith".data,
             status := msgNickname, suggestion := none,
             name := some c7Display } := by decide

/-- C2: rule precedence is deterministic with staff first — a format-valid
candidate whose normalized key has a staff entry always gets the
staff-misfiled status carrying the staff title, for every primary table,
nickname table and prefix; in particular a key also present in the primary
table never gets the matched status, and the row appears in the report
whenever the candidate is among the parsed files. -/
theorem claim_C2_staff_precedence
    (pk nk : List (List Char × List Char)) (sd : List (List Char × StaffInfo))
    (pfx : List Char) (e : Candidate) (si : StaffInfo) (rn : List Char)
    (hv : e.format_valid = true)
    (hsd : dlookup sd (normalize (e.first.getD [] ++ ' ' :: e.last.getD [])) =
      some si)
    (hpk : dlookup pk (normalize (e.first.getD [] ++ ' ' :: e.last.getD [])) =
      some rn) :
    step1Row pk nk sd pfx e =
      { filename := some e.filename, first := e.first.getD [],
        last := e.last.getD [], status := msgStaff si.title,
        suggestion := none, name := none } ∧
    msgStaff si.title ≠ msgMatched ∧
    ∀ parsed, e ∈ parsed →
      step1Row pk nk sd pfx e ∈
        check_mismatches_and_missing parsed pk nk sd pfx := by
  refine ⟨?_, msgStaff_ne_msgMatched si.title, ?_⟩
  · unfold step1Row step1Locals
    simp [hv, hsd]
  · intro parsed he
    unfold check_mismatches_and_missing
    refine List.mem_append_left _ (List.mem_map.mpr ⟨e, ?_, rfl⟩)
    exact List.mem_filter.mpr ⟨he, hv⟩

/-- C10: a format-valid candidate whose key is a nickname key while the
mapped display name does not match the `(\S+)\s+["“”‘’]` pattern still gets
the nickname status and carries the display name, with no suggestion
computed. -/
theorem claim_C10_nickname_without_suggestion
    (pk nk : List (List Char × List Char)) (sd : List (List Char × StaffInfo))
    (pfx : List Char) (e : Candidate) (d : List Char)
    (hv : e.format_valid = true)
    (hsd : dlookup sd (normalize (e.first.getD [] ++ ' ' :: e.last.getD [])) =
      none)
    (hschool : e.school = some (pyLower pfx))
    (hpk : dlookup pk (normalize (e.first.getD [] ++ ' ' :: e.last.getD [])) =
      none)
    (hnk : dlookup nk (normalize (e.first.getD [] ++ ' ' :: e.last.getD [])) =
      some d)
    (hpat : findNickShortFirst d = none) :
    step1Locals pk nk sd pfx e = (msgNickname, none, some d) ∧
    step1Row pk nk sd pfx e =
      { filename := some e.filename, first := e.first.getD [],
        last := e.last.getD [], status := msgNickname,
        suggestion := none, name := some d } := by
  have hl : step1Locals pk nk sd pfx e = (msgNickname, none, some d) := by
    unfold step1Locals
    simp [hv, hsd, hschool, hpk, hnk, hpat]
  exact ⟨hl, by unfold step1Row; rw [hl]⟩

/-- C6: with all three lookup tables empty the matcher degrades rather than
fails — every format-valid candidate's row is a school-prefix mismatch when
its school differs from the lowercased prefix and a not-in-roster verdict
otherwise, and the missing-players list is empty. -/
theorem claim_C6_empty_tables_degradation (parsed : List Candidate)
    (pfx : List Char) :
    check_mismatches_and_missing parsed [] [] [] pfx =
      (parsed.filter fun e => e.format_valid).map (fun e =>
        { filename := some e.filename, first := e.first.getD [],
          last := e.last.getD [],
          status :=
            if e.school ≠ some (pyLower pfx) then msgSchool
            else msgNotInRoster,
          suggestion := none, name := none }) ∧
    find_missing_players (parsed.filter fun e => e.format_valid) [] [] pfx =
      [] := by
  constructor
  · unfold check_mismatches_and_missing find_missing_players
    simp only [List.filterMap_nil, List.append_nil]
    refine List.map_congr_left ?_
    intro e he
    have hv : e.format_valid = true := (List.mem_filter.mp he).2
    unfold step1Row step1Locals
    by_cases hs : e.school = some (pyLower pfx)
    · simp [hv, hs, dlookup]
    · simp [hv, hs, dlookup]
  · rfl

/-- C9: `find_missing_players` never emits a row for a primary-table entry
whose display name lowercases to `full bio` or `view full bio` — every
emitted row's display name avoids both. -/
theorem claim_C9_denylist (parsed : List Candidate)
    (pk : List (List Char × List Char)) (sd : List (List Char × StaffInfo))
    (pfx : List Char) (r : Row) (n : List Char)
    (hr : r ∈ find_missing_players parsed pk sd pfx)
    (hn : r.name = some n) :
    pyLower n ≠ "full bio".data ∧ pyLower n ≠ "view full bio".data := by
  unfold find_missing_players at hr
  rw [List.mem_filterMap] at hr
  obtain ⟨p, hp, heq⟩ := hr
  by_cases h1 : (dlookup sd p.1).isSome
  · simp [h1] at heq
  · by_cases h2 : pyLower p.2 = "full bio".data ∨
        pyLower p.2 = "view full bio".data
    · simp [h1, h2] at heq
    · by_cases h3 : p.1 ∈ existingKeys parsed sd
      · simp [h1, h2, h3] at heq
      · simp only [h1, h2, h3, if_neg, if_false, Bool.false_eq_true,
          ite_false] at heq
        push_neg at h2
        have hname : r.name = some p.2 := by
          rw [← Option.some.inj heq]
          rfl
        rw [hn] at hname
        rw [Option.some.inj hname]
        exact h2

/-- C5 (amended): for every primary-table entry whose key is not a staff
key, whose display name is not one of the two denylisted pseudo-entries,
and whose key is absent from the valid non-staff candidate keys,
`find_missing_players` emits the missing row whose suggestion splits the
display name at its first space (first token lowercased as the first name,
remainder lowercased as the last name), degrading to
`prefix_first.png` when there is no last-name part. -/
theorem claim_C5_missing_player_row (parsed : List Candidate)
    (pk : List (List Char × List Char)) (sd : List (List Char × StaffInfo))
    (pfx k rname : List Char)
    (hmem : (k, rname) ∈ pk)
    (hstaff : dlookup sd k = none)
    (hd1 : pyLower rname ≠ "full bio".data)
    (hd2 : pyLower rname ≠ "view full bio".data)
    (habs : k ∉ existingKeys parsed sd) :
    rowOfMissing pfx rname ∈ find_missing_players parsed pk sd pfx ∧
    (rowOfMissing pfx rname).suggestion = some (
      if (split1 rname).2.getD [] ≠ [] then
        pfx ++ '_' :: pyLower ((split1 rname).2.getD []) ++ '_' ::
          pyLower (split1 rname).1 ++ ".png".data
      else pfx ++ '_' :: pyLower (split1 rname).1 ++ ".png".data) ∧
    (rowOfMissing pfx rname).name = some rname := by
  refine ⟨?_, ?_, rfl⟩
  · unfold find_missing_players
    rw [List.mem_filterMap]
    refine ⟨(k, rname), hmem, ?_⟩
    simp [hstaff, hd1, hd2, habs]
  · unfold rowOfMissing
    by_cases h : (split1 rname).2.getD [] ≠ []
    · simp only [h, if_true, ite_true]
    · simp only [h, if_false, ite_false]

/-- C4 (amended): for every filename with the image extension, the candidate
is format-valid iff the extension-stripped base has exactly two underscores
and the last-name and first-name segments are non-blank; the school segment
is not checked (it may be empty).  An underscore-count violation and an
empty-name violation carry distinguishable reason strings. -/
theorem claim_C4_format_validity (file : List Char)
    (h : (".png".data).isSuffixOf (pyLower (basename file)) = true) :
    ∃ c, parseOne file = some c ∧
      (c.format_valid = true ↔
        (countChar '_' (pngBase (basename file)) = 2 ∧
         pyStrip ((splitOnChar '_' (pngBase (basename file))).getD 1 []) ≠ [] ∧
         pyStrip ((splitOnChar '_' (pngBase (basename file))).getD 2 []) ≠ [])) ∧
      (countChar '_' (pngBase (basename file)) ≠ 2 →
        c.format_msg = some msgUnderscores) ∧
      (countChar '_' (pngBase (basename file)) = 2 → c.format_valid = false →
        c.format_msg = some msgMissingName) := by
  unfold parseOne
  simp only [h, if_true]
  by_cases h2 : countChar '_' (pngBase (basename file)) = 2
  · have hlen : (splitOnChar '_' (pngBase (basename file))).length = 3 := by
      rw [splitOnChar_length, h2]
    rw [if_neg (not_not_intro h2)]
    by_cases hseg :
        pyStrip ((splitOnChar '_' (pngBase (basename file))).getD 1 []) = [] ∨
        pyStrip ((splitOnChar '_' (pngBase (basename file))).getD 2 []) = []
    · rw [if_pos (Or.inr hseg)]
      refine ⟨_, rfl, ?_, ?_, ?_⟩
      · simp only [Bool.false_eq_true, false_iff]
        intro hcon
        rcases hseg with hs | hs
        · exact hcon.2.1 hs
        · exact hcon.2.2 hs
      · intro hcon
        exact absurd h2 hcon
      · intro _ _
        rfl
    · push_neg at hseg
      rw [if_neg ?hc]
      case hc =>
        intro hcon
        rcases hcon with hc | hc | hc
        · exact hc hlen
        · exact hseg.1 hc
        · exact hseg.2 hc
      refine ⟨_, rfl, ?_, ?_, ?_⟩
      · simp only [true_iff]
        exact ⟨h2, hseg.1, hseg.2⟩
      · intro hcon
        exact absurd h2 hcon
      · intro _ hcon
        exact absurd hcon (by simp)
  · rw [if_pos h2]
    refine ⟨_, rfl, ?_, ?_, ?_⟩
    · simp only [Bool.false_eq_true, false_iff]
      intro hcon
      exact h2 hcon.1
    · intro _
      rfl
    · intro hcon
      exact absurd hcon h2

/-- C8 (amended): a filename whose base has three underscores (the
`school_last_first_nick.png` shape) is always rejected with the
two-underscore reason; the first-name field of a format-valid candidate is
a single segment, never one embedding an underscore-delimited nickname. -/
theorem claim_C8_three_underscores_invalid (file : List Char)
    (h : (".png".data).isSuffixOf (pyLower (basename file)) = true)
    (h3 : countChar '_' (pngBase (basename file)) = 3) :
    parseOne file =
      some { filename := basename file, school := none, last := none,
             first := none, format_valid := false,
             format_msg := some msgUnderscores } := by
  unfold parseOne
  simp only [h, if_true]
  have hne : countChar '_' (pngBase (basename file)) ≠ 2 := by omega
  simp [hne]

/-- Concrete instantiation of `claim_C2_staff_precedence`: a candidate whose
key is in both the staff table and the primary table gets the staff status
with the staff title. -/
theorem claim_C2_staff_precedence_witness :
    step1Row wPrimary [] wStaff "cal".data wCand =
      { filename := some "cal_smith_john.png".data, first := "john".data,
        last := "smith".data, status := msgStaff "Coach".data,
        suggestion := none, name := none } ∧
    msgStaff "Coach".data ≠ msgMatched ∧
    ∀ parsed, wCand ∈ parsed →
      step1Row wPrimary [] wStaff "cal".data wCand ∈
        check_mismatches_and_missing parsed wPrimary [] wStaff "cal".data :=
  claim_C2_staff_precedence wPrimary [] wStaff "cal".data wCand
    { name := "John Smith".data, title := "Coach".data } "John Smith".data
    (by decide) (by decide) (by decide)

/-- Concrete instantiation of `claim_C10_nickname_without_suggestion`:
display name `Bob` has no quoted-nickname shape, so the verdict carries it
without a suggestion. -/
theorem claim_C10_nickname_without_suggestion_witness :
    step1Locals [] wNick [] "cal".data wCand =
      (msgNickname, none, some "Bob".data) ∧
    step1Row [] wNick [] "cal".data wCand =
      { filename := some "cal_smith_john.png".data, first := "john".data,
        last := "smith".data, status := msgNickname, suggestion := none,
        name := some "Bob".data } :=
  claim_C10_nickname_without_suggestion [] wNick [] "cal".data wCand
    "Bob".data (by decide) (by decide) (by decide) (by decide) (by decide)
    (by decide)

/-- Concrete instantiation of `claim_C9_denylist` at the `Jane Doe` missing
row. -/
theorem claim_C9_denylist_witness :
    pyLower "Jane Doe".data ≠ "full bio".data ∧
    pyLower "Jane Doe".data ≠ "view full bio".data :=
  claim_C9_denylist [] [("jane doe".data, "Jane Doe".data)] [] "cal".data
    (rowOfMissing "cal".data "Jane Doe".data) "Jane Doe".data (by decide)
    (by decide)

/-- Concrete instantiation of `claim_C5_missing_player_row`: the absent
roster player `Jane Doe` yields a missing row suggesting
`cal_doe_jane.png`. -/
theorem claim_C5_missing_player_row_witness :
    rowOfMissing "cal".data "Jane Doe".data ∈
      find_missing_players [] [("jane doe".data, "Jane Doe".data)] []
        "cal".data ∧
    (rowOfMissing "cal".data "Jane Doe".data).suggestion = some (
      if (split1 "Jane Doe".data).2.getD [] ≠ [] then
        "cal".data ++ '_' :: pyLower ((split1 "Jane Doe".data).2.getD []) ++
          '_' :: pyLower (split1 "Jane Doe".data).1 ++ ".png".data
      else "cal".data ++ '_' :: pyLower (split1 "Jane Doe".data).1 ++
        ".png".data) ∧
    (rowOfMissing "cal".data "Jane Doe".data).name = some "Jane Doe".data :=
  claim_C5_missing_player_row [] [("jane doe".data, "Jane Doe".data)] []
    "cal".data "jane doe".data "Jane Doe".data (by decide) (by decide)
    (by decide) (by decide) (by decide)

/-- Concrete instantiation of `claim_C4_format_validity` at a well-formed
filename. -/
theorem claim_C4_format_validity_witness :
    ∃ c, parseOne "cal_smith_john.png".data = some c ∧
      (c.format_valid = true ↔
        (countChar '_' (pngBase (basename "cal_smith_john.png".data)) = 2 ∧
         pyStrip ((splitOnChar '_'
           (pngBase (basename "cal_smith_john.png".data))).getD 1 []) ≠ [] ∧
         pyStrip ((splitOnChar '_'
           (pngBase (basename "cal_smith_john.png".data))).getD 2 []) ≠ [])) ∧
      (countChar '_' (pngBase (basename "cal_smith_john.png".data)) ≠ 2 →
        c.format_msg = some msgUnderscores) ∧
      (countChar '_' (pngBase (basename "cal_smith_john.png".data)) = 2 →
        c.format_valid = false → c.format_msg = some msgMissingName) :=
  claim_C4_format_validity "cal_smith_john.png".data (by decide)

/-- Concrete instantiation of `claim_C8_three_underscores_invalid`. -/
theorem claim_C8_three_underscores_invalid_witness :
    parseOne "cal_smith_john_nick.png".data =
      some { filename := basename "cal_smith_john_nick.png".data,
             school := none, last := none, first := none,
             format_valid := false, format_msg := some msgUnderscores } :=
  claim_C8_three_underscores_invalid "cal_smith_john_nick.png".data
    (by decide) (by decide)

/-- Lowercasing a character twice is the same as doing it once. -/
theorem lowerChar_idem (c : Char) : lowerChar (lowerChar c) = lowerChar c := by
  unfold lowerChar
  by_cases h : 65 ≤ c.toNat ∧ c.toNat ≤ 90
  · rw [dif_pos h]
    have hn : (Char.ofNatAux (c.toNat + 32) (Or.inl (by omega))).toNat =
        c.toNat + 32 := rfl
    rw [dif_neg]
    rw [hn]
    omega
  · rw [dif_neg h]
    exact dif_neg h

/-- A successful `findClose` returns a suffix of its input. -/
theorem findClose_suffix (q : Char) (l r : List Char)
    (h : findClose q l = some r) : r <:+ l := by
  induction l with
  | nil => simp [findClose] at h
  | cons c rest ih =>
    rw [findClose] at h
    by_cases hc : c = q
    · rw [if_pos hc] at h
      rw [← Option.some.inj h]
      exact List.suffix_cons c rest
    · rw [if_neg hc] at h
      by_cases hn : c = '\n'
      · rw [if_pos hn] at h
        exact absurd h (by simp)
      · rw [if_neg hn] at h
        exact (ih h).trans (List.suffix_cons c rest)

/-- Every character of `sqWithFuel`'s output occurs in its input. -/
theorem mem_sqWithFuel (fuel : Nat) (l : List Char) (c : Char)
    (h : c ∈ sqWithFuel fuel l) : c ∈ l := by
  induction fuel generalizing l with
  | zero => exact h
  | succ fuel ih =>
    match l with
    | [] => exact h
    | d :: rest =>
      rw [sqWithFuel] at h
      by_cases hq : isQuoteN d
      · rw [if_pos hq] at h
        cases hf : findClose d rest with
        | none =>
          rw [hf] at h
          rcases List.mem_cons.mp h with h1 | h1
          · exact h1 ▸ List.mem_cons_self d rest
          · exact List.mem_cons_of_mem d (ih rest h1)
        | some rest2 =>
          rw [hf] at h
          exact List.mem_cons_of_mem d
            ((findClose_suffix d rest rest2 hf).mem (ih rest2 h))
      · rw [if_neg hq] at h
        rcases List.mem_cons.mp h with h1 | h1
        · exact h1 ▸ List.mem_cons_self d rest
        · exact List.mem_cons_of_mem d (ih rest h1)

/-- A successful `matchSuffixAt` returns a suffix of its input. -/
theorem matchSuffixAt_suffix (s r : List Char) (h : matchSuffixAt s = some r) :
    r <:+ s := by
  have htok : ∀ tok, tryTok tok s = some r → r <:+ s := by
    intro tok htr
    unfold tryTok at htr
    by_cases hc : tok <+: s ∧ boundaryAfter (s.drop tok.length) = true
    · rw [if_pos hc] at htr
      rw [← Option.some.inj htr]
      exact List.drop_suffix _ _
    · rw [if_neg hc] at htr
      exact absurd htr (by simp)
  unfold matchSuffixAt at h
  rcases h1 : tryTok ['j', 'r'] s with _ | r1 <;> rw [h1] at h
  case some => exact htok _ (h1.trans (congrArg some (Option.some.inj h)))
  rcases h2 : tryTok ['s', 'r'] s with _ | r2 <;> rw [h2] at h
  case some => exact htok _ (h2.trans (congrArg some (Option.some.inj h)))
  rcases h3 : tryTok ['i', 'i'] s with _ | r3 <;> rw [h3] at h
  case some => exact htok _ (h3.trans (congrArg some (Option.some.inj h)))
  rcases h4 : tryTok ['i', 'i', 'i'] s with _ | r4 <;> rw [h4] at h
  case some => exact htok _ (h4.trans (congrArg some (Option.some.inj h)))
  rcases h5 : tryTok ['i', 'v'] s with _ | r5 <;> rw [h5] at h
  case some => exact htok _ (h5.trans (congrArg some (Option.some.inj h)))
  exact htok _ h

/-- Every character of `rsWithFuel`'s output occurs in its input. -/
theorem mem_rsWithFuel (fuel : Nat) (b : Bool) (l : List Char) (c : Char)
    (h : c ∈ rsWithFuel fuel b l) : c ∈ l := by
  induction fuel generalizing b l with
  | zero => exact h
  | succ fuel ih =>
    match l with
    | [] => exact h
    | d :: rest =>
      rw [rsWithFuel] at h
      by_cases hb : b = true
      · rw [if_pos hb] at h
        cases hm : matchSuffixAt (d :: rest) with
        | some r =>
          rw [hm] at h
          exact (matchSuffixAt_suffix _ _ hm).mem (ih false r h)
        | none =>
          rw [hm] at h
          rcases List.mem_cons.mp h with h1 | h1
          · exact h1 ▸ List.mem_cons_self d rest
          · exact List.mem_cons_of_mem d (ih _ rest h1)
      · rw [if_neg hb] at h
        rcases List.mem_cons.mp h with h1 | h1
        · exact h1 ▸ List.mem_cons_self d rest
        · exact List.mem_cons_of_mem d (ih _ rest h1)

/-- Every character of `nfdStrip`'s output is a non-combining character of
some input character's decomposition. -/
theorem mem_nfdStrip (l : List Char) (c : Char) (h : c ∈ nfdStrip l) :
    ∃ a ∈ l, c ∈ decompChar a ∧ isCombining c = false := by
  unfold nfdStrip at h
  have h1 := List.mem_filter.mp h
  have h2 := List.mem_flatten.mp h1.1
  obtain ⟨seg, hseg, hc⟩ := h2
  obtain ⟨a, ha, rfl⟩ := List.mem_map.mp hseg
  exact ⟨a, ha, hc, by simpa using h1.2⟩

/-- Every character of `collapseWsAux`'s output occurs in its input or is a
space. -/
theorem mem_collapseWsAux (b : Bool) (l : List Char) (c : Char)
    (h : c ∈ collapseWsAux b l) : c ∈ l ∨ c = ' ' := by
  induction l generalizing b with
  | nil => exact absurd h (by simp [collapseWsAux])
  | cons d rest ih =>
    rw [collapseWsAux] at h
    by_cases hd : isPySpace d
    · rw [if_pos hd] at h
      cases b with
      | true =>
        rcases ih true (by simpa using h) with h1 | h1
        · exact Or.inl (List.mem_cons_of_mem d h1)
        · exact Or.inr h1
      | false =>
        simp only [if_false, Bool.false_eq_true, ite_false] at h
        rcases List.mem_cons.mp h with h1 | h1
        · exact Or.inr h1
        · rcases ih true h1 with h2 | h2
          · exact Or.inl (List.mem_cons_of_mem d h2)
          · exact Or.inr h2
    · rw [if_neg hd] at h
      rcases List.mem_cons.mp h with h1 | h1
      · exact Or.inl (h1 ▸ List.mem_cons_self d rest)
      · rcases ih false h1 with h2 | h2
        · exact Or.inl (List.mem_cons_of_mem d h2)
        · exact Or.inr h2

/-- Every character of `pyStrip`'s output occurs in its input. -/
theorem mem_pyStrip (l : List Char) (c : Char) (h : c ∈ pyStrip l) : c ∈ l := by
  unfold pyStrip at h
  rw [List.mem_reverse] at h
  have h1 := (List.dropWhile_suffix isPySpace).mem h
  rw [List.mem_reverse] at h1
  exact (List.dropWhile_suffix isPySpace).mem h1

/-- `pyLower` is the identity on lists of lower-fixed characters. -/
theorem pyLower_id (l : List Char) (h : ∀ c ∈ l, lowerChar c = c) :
    pyLower l = l := by
  unfold pyLower
  rw [List.map_congr_left h]
  exact List.map_id l

/-- `sqWithFuel` is the identity on quote-free lists, for any fuel. -/
theorem sqWithFuel_id (fuel : Nat) (l : List Char)
    (h : ∀ c ∈ l, isQuoteN c = false) : sqWithFuel fuel l = l := by
  induction fuel generalizing l with
  | zero => rfl
  | succ fuel ih =>
    match l with
    | [] => rfl
    | c :: rest =>
      rw [sqWithFuel]
      rw [if_neg (by simp [h c (List.mem_cons_self c rest)])]
      rw [ih rest (fun d hd => h d (List.mem_cons_of_mem c hd))]

/-- `stripQuoted` is the identity on quote-free lists. -/
theorem stripQuoted_id (l : List Char) (h : ∀ c ∈ l, isQuoteN c = false) :
    stripQuoted l = l := sqWithFuel_id l.length l h

/-- Flattening a list of singletons gives back the list. -/
theorem flatten_map_single (l : List Char) :
    (l.map (fun c => [c])).flatten = l := by
  induction l with
  | nil => rfl
  | cons c rest ih => simpa using ih

/-- `nfdStrip` is the identity on lists of NFD-stable, non-combining
characters. -/
theorem nfdStrip_id (l : List Char)
    (h : ∀ c ∈ l, decompChar c = [c] ∧ isCombining c = false) :
    nfdStrip l = l := by
  unfold nfdStrip
  have h1 : l.map decompChar = l.map (fun c => [c]) :=
    List.map_congr_left (fun c hc => (h c hc).1)
  rw [h1, flatten_map_single]
  exact List.filter_eq_self.mpr (fun c hc => by simp [(h c hc).2])

/-- `keepFilter` is the identity when every character is kept. -/
theorem keepFilter_id (l : List Char) (h : ∀ c ∈ l, keepChar c = true) :
    keepFilter l = l := List.filter_eq_self.mpr h

/-- Whitespace characters in `collapseWsAux`'s output are plain spaces. -/
theorem allWsSpace_collapseWsAux (b : Bool) (l : List Char) :
    allWsSpace (collapseWsAux b l) := by
  intro c hc hsp
  induction l generalizing b with
  | nil => exact absurd hc (by simp [collapseWsAux])
  | cons d rest ih =>
    rw [collapseWsAux] at hc
    by_cases hd : isPySpace d
    · rw [if_pos hd] at hc
      cases b with
      | true => exact ih true (by simpa using hc)
      | false =>
        simp only [if_false, Bool.false_eq_true, ite_false] at hc
        rcases List.mem_cons.mp hc with h1 | h1
        · exact h1
        · exact ih true h1
    · rw [if_neg hd] at hc
      rcases List.mem_cons.mp hc with h1 | h1
      · exact absurd (h1 ▸ hsp) (by simp [hd])
      · exact ih false h1

/-- The head of `collapseWsAux true l` is never whitespace. -/
theorem head_collapseWsAux_true (l : List Char) (c : Char)
    (h : (collapseWsAux true l).head? = some c) : isPySpace c = false := by
  induction l with
  | nil => exact absurd h (by simp [collapseWsAux])
  | cons d rest ih =>
    rw [collapseWsAux] at h
    by_cases hd : isPySpace d
    · rw [if_pos hd] at h
      exact ih (by simpa using h)
    · rw [if_neg hd] at h
      simp only [List.head?_cons, Option.some.injEq] at h
      rw [← h]
      simpa using hd

/-- `collapseWsAux` output never has two adjacent whitespace characters. -/
theorem noDoubleWs_collapseWsAux (b : Bool) (l : List Char) :
    noDoubleWs (collapseWsAux b l) := by
  induction l generalizing b with
  | nil => simp [collapseWsAux, noDoubleWs]
  | cons d rest ih =>
    rw [collapseWsAux]
    by_cases hd : isPySpace d
    · rw [if_pos hd]
      cases b with
      | true => exact ih true
      | false =>
        simp only [if_false, Bool.false_eq_true, ite_false]
        cases hout : collapseWsAux true rest with
        | nil => simp [noDoubleWs]
        | cons h2 t2 =>
          have hh2 : isPySpace h2 = false :=
            head_collapseWsAux_true rest h2 (by simp [hout])
          refine ⟨by simp [hh2], ?_⟩
          rw [← hout]
          exact ih true
    · rw [if_neg hd]
      cases hout : collapseWsAux false rest with
      | nil => simp [noDoubleWs]
      | cons h2 t2 =>
        refine ⟨by simp [hd], ?_⟩
        rw [← hout]
        exact ih false

/-- `noDoubleWs` passes to the tail. -/
theorem noDoubleWs_tail (c : Char) (l : List Char)
    (h : noDoubleWs (c :: l)) : noDoubleWs l := by
  cases l with
  | nil => trivial
  | cons d rest => exact h.2

/-- `noDoubleWs` restricts to the left part of an append. -/
theorem noDoubleWs_append_left (l post : List Char)
    (h : noDoubleWs (l ++ post)) : noDoubleWs l := by
  induction l with
  | nil => trivial
  | cons c rest ih =>
    cases rest with
    | nil => trivial
    | cons d rest2 =>
      have h2 : noDoubleWs (c :: d :: (rest2 ++ post)) := h
      exact ⟨h2.1, ih h2.2⟩

/-- `noDoubleWs` restricts to suffixes. -/
theorem noDoubleWs_suffix (l m : List Char) (hsuf : l <:+ m)
    (h : noDoubleWs m) : noDoubleWs l := by
  obtain ⟨pre, hpre⟩ := hsuf
  induction pre generalizing m with
  | nil =>
    rw [List.nil_append] at hpre
    rw [← hpre] at h
    exact h
  | cons c rest ih =>
    cases m with
    | nil => exact absurd hpre (by simp)
    | cons d m2 =>
      have h1 : rest ++ l = m2 := by
        have := hpre
        simp only [List.cons_append, List.cons.injEq] at this
        exact this.2
      exact ih m2 (noDoubleWs_tail d m2 h) h1

/-- `collapseWsAux` is the identity on space-normalized input: whitespace
characters are plain spaces, never adjacent, and (when the flag is set) not
at the head. -/
theorem collapseWsAux_id (l : List Char) (b : Bool)
    (hws : allWsSpace l) (hnd : noDoubleWs l)
    (hb : b = true → ∀ c, l.head? = some c → isPySpace c = false) :
    collapseWsAux b l = l := by
  induction l generalizing b with
  | nil => rfl
  | cons c rest ih =>
    rw [collapseWsAux]
    by_cases hc : isPySpace c
    · have hcs : c = ' ' := hws c (List.mem_cons_self c rest) hc
      cases b with
      | true =>
        exact absurd (hb rfl c (by simp)) (by simp [hc])
      | false =>
        rw [if_pos hc]
        simp only [Bool.false_eq_true, if_false, ite_false]
        rw [hcs]
        congr 1
        refine ih true (fun d hd hds => hws d (List.mem_cons_of_mem c hd) hds)
          (noDoubleWs_tail c rest hnd) ?_
        intro _ d hd
        cases rest with
        | nil => exact absurd hd (by simp)
        | cons e rest2 =>
          simp only [List.head?_cons, Option.some.injEq] at hd
          by_contra hcon
          exact hnd.1 ⟨hc, by simp_all⟩
    · rw [if_neg hc]
      congr 1
      exact ih false (fun d hd hds => hws d (List.mem_cons_of_mem c hd) hds)
        (noDoubleWs_tail c rest hnd) (by simp)

/-- `collapseWs` is the identity on space-normalized input. -/
theorem collapseWs_id (l : List Char) (hws : allWsSpace l)
    (hnd : noDoubleWs l) : collapseWs l = l :=
  collapseWsAux_id l false hws hnd (by simp)

/-- Dropping a while-run from a list whose head fails the predicate is the
identity. -/
theorem dropWhile_eq_self_of_head (p : Char → Bool) (l : List Char)
    (h : ∀ c, l.head? = some c → p c = false) : l.dropWhile p = l := by
  cases l with
  | nil => rfl
  | cons c rest =>
    rw [List.dropWhile_cons, h c (by simp)]
    simp

/-- The head of `pyStrip`'s output is never whitespace. -/
theorem pyStrip_head_not (l : List Char) (c : Char)
    (h : (pyStrip l).head? = some c) : isPySpace c = false := by
  unfold pyStrip at h
  rw [List.head?_reverse] at h
  cases hx : ((l.dropWhile isPySpace).reverse.dropWhile isPySpace) with
  | nil => rw [hx] at h; exact absurd h (by simp)
  | cons d rest =>
    obtain ⟨pre, hpre⟩ := List.dropWhile_suffix
      (l := (l.dropWhile isPySpace).reverse) (p := isPySpace)
    rw [hx] at h hpre
    have h2 : (d :: rest).getLast? = (l.dropWhile isPySpace).reverse.getLast? := by
      rw [← hpre]
      exact (List.getLast?_append_of_ne_nil pre (by simp)).symm
    rw [h2, List.getLast?_reverse] at h
    have h3 := List.head?_dropWhile_not isPySpace l
    rw [h] at h3
    exact h3

/-- The last character of `pyStrip`'s output is never whitespace. -/
theorem pyStrip_getLast_not (l : List Char) (c : Char)
    (h : (pyStrip l).getLast? = some c) : isPySpace c = false := by
  unfold pyStrip at h
  rw [List.getLast?_reverse] at h
  have h3 := List.head?_dropWhile_not isPySpace (l.dropWhile isPySpace).reverse
  rw [h] at h3
  exact h3

/-- `pyStrip` is the identity when neither end is whitespace. -/
theorem pyStrip_id (l : List Char)
    (hh : ∀ c, l.head? = some c → isPySpace c = false)
    (hl : ∀ c, l.getLast? = some c → isPySpace c = false) :
    pyStrip l = l := by
  unfold pyStrip
  rw [dropWhile_eq_self_of_head isPySpace l hh]
  rw [dropWhile_eq_self_of_head isPySpace l.reverse
    (fun c hc => hl c (by rwa [List.head?_reverse] at hc))]
  exact List.reverse_reverse l

/-- `pyStrip` is idempotent. -/
theorem pyStrip_idem (l : List Char) : pyStrip (pyStrip l) = pyStrip l :=
  pyStrip_id (pyStrip l) (pyStrip_head_not l) (pyStrip_getLast_not l)

/-- `noDoubleWs` as a `Chain'` statement. -/
theorem noDoubleWs_iff_chain (l : List Char) :
    noDoubleWs l ↔
      l.Chain' (fun a b => ¬(isPySpace a = true ∧ isPySpace b = true)) := by
  induction l with
  | nil => simp [noDoubleWs]
  | cons c rest ih =>
    cases rest with
    | nil => simp [noDoubleWs]
    | cons d rest2 =>
      rw [List.chain'_cons]
      exact and_congr Iff.rfl ih

/-- `noDoubleWs` is preserved by reversal. -/
theorem noDoubleWs_reverse (l : List Char) (h : noDoubleWs l) :
    noDoubleWs l.reverse := by
  rw [noDoubleWs_iff_chain] at h ⊢
  rw [List.chain'_reverse]
  exact List.Chain'.imp (fun a b hab hba => hab ⟨hba.2, hba.1⟩) h

/-- `noDoubleWs` is preserved by `pyStrip`. -/
theorem noDoubleWs_pyStrip (l : List Char) (h : noDoubleWs l) :
    noDoubleWs (pyStrip l) := by
  unfold pyStrip
  have h1 : noDoubleWs (l.dropWhile isPySpace) :=
    noDoubleWs_suffix _ l (List.dropWhile_suffix isPySpace) h
  have h2 := noDoubleWs_reverse _ h1
  have h3 : noDoubleWs ((l.dropWhile isPySpace).reverse.dropWhile isPySpace) :=
    noDoubleWs_suffix _ _ (List.dropWhile_suffix isPySpace) h2
  exact noDoubleWs_reverse _ h3

/-- The composition `pyStrip after collapseWs` produces a `collapseWs`
fixpoint. -/
theorem collapseWs_pyStrip_collapseWs (u : List Char) :
    collapseWs (pyStrip (collapseWs u)) = pyStrip (collapseWs u) := by
  refine collapseWs_id _ ?_ ?_
  · intro c hc hsp
    exact allWsSpace_collapseWsAux false u c (mem_pyStrip _ c hc) hsp
  · exact noDoubleWs_pyStrip _ (noDoubleWs_collapseWsAux false u)

/-- A successful character lookup means the pair is in the table. -/
theorem dlookupChar_mem (d : List (Char × List Char)) (k : Char)
    (v : List Char) (h : dlookupChar d k = some v) : (k, v) ∈ d := by
  induction d with
  | nil => exact absurd h (by simp [dlookupChar])
  | cons p rest ih =>
    rw [dlookupChar] at h
    by_cases hp : p.1 = k
    · rw [if_pos hp] at h
      have : p = (k, v) := by
        obtain ⟨p1, p2⟩ := p
        simp_all
      exact this ▸ List.mem_cons_self p rest
    · rw [if_neg hp] at h
      exact List.mem_cons_of_mem p (ih h)

/-- Every character produced by a decomposition-table entry is lower-fixed,
and when non-combining it has no decomposition of its own. -/
theorem decompTable_good :
    ∀ p ∈ decompTable, ∀ c ∈ p.2, lowerChar c = c ∧
      (isCombining c = false → dlookupChar decompTable c = none) := by
  decide

/-- A non-combining character of any decomposition is NFD-stable. -/
theorem decompChar_mem_fixed (a c : Char) (hc : c ∈ decompChar a)
    (hnc : isCombining c = false) : decompChar c = [c] := by
  unfold decompChar at hc
  cases h : dlookupChar decompTable a with
  | none =>
    rw [h] at hc
    simp only [List.mem_singleton] at hc
    subst hc
    unfold decompChar
    rw [h]
  | some l =>
    rw [h] at hc
    have hmem := dlookupChar_mem decompTable a l h
    have hg := (decompTable_good (a, l) hmem c hc).2 hnc
    unfold decompChar
    rw [hg]

/-- Characters of a decomposition inherit lower-fixedness. -/
theorem decompChar_mem_lower (a c : Char) (hc : c ∈ decompChar a)
    (ha : lowerChar a = a) : lowerChar c = c := by
  unfold decompChar at hc
  cases h : dlookupChar decompTable a with
  | none =>
    rw [h] at hc
    simp only [List.mem_singleton] at hc
    subst hc
    exact ha
  | some l =>
    rw [h] at hc
    exact (decompTable_good (a, l) (dlookupChar_mem decompTable a l h) c hc).1

/-- Kept characters are never quote characters. -/
theorem keep_not_quote (c : Char) (h : keepChar c = true) :
    isQuoteN c = false := by
  unfold keepChar isWordChar isPySpace at h
  unfold isQuoteN
  simp only [Bool.or_eq_true, decide_eq_true_eq] at h
  simp only [decide_eq_false_iff_not]
  omega

/-- Every character of `normalize`'s output is already in canonical form:
lower-fixed, quote-free, NFD-stable, non-combining, and kept by the
punctuation filter. -/
theorem normalize_canon (s : List Char) : ∀ c ∈ normalize s, canonChar c := by
  intro c hc
  unfold normalize at hc
  have h1 := mem_pyStrip _ c hc
  rcases mem_collapseWsAux false _ c h1 with h2 | h2
  case inr =>
    subst h2
    unfold canonChar
    refine ⟨by decide, by decide, ?_, by decide, by decide⟩
    unfold decompChar
    decide
  case inl =>
    have h3 := List.mem_filter.mp h2
    have hkeep : keepChar c = true := h3.2
    obtain ⟨a, ha, hca, hnc⟩ := mem_nfdStrip _ c h3.1
    have hlowa : lowerChar a = a := by
      have h4 := mem_rsWithFuel _ true _ a ha
      have h5 := mem_sqWithFuel _ _ a h4
      obtain ⟨a0, _, rfl⟩ := List.mem_map.mp h5
      exact lowerChar_idem a0
    exact ⟨decompChar_mem_lower a c hca hlowa, keep_not_quote c hkeep,
      decompChar_mem_fixed a c hca hnc, hnc, hkeep⟩

/-- C3 (amended): `normalize` is idempotent on every input whose normalized
form the suffix-removal pass leaves unchanged (equivalently, whose
normalized form contains no standalone `jr`/`sr`/`ii`/`iii`/`iv`/`v`
token); the counterexample shows the restriction is necessary. -/
theorem claim_C3_conditional_idempotence (s : List Char)
    (h : removeSuffixes (normalize s) = normalize s) :
    normalize (normalize s) = normalize s := by
  have hc := normalize_canon s
  have h1 : pyLower (normalize s) = normalize s :=
    pyLower_id _ (fun c hm => (hc c hm).1)
  have h2 : stripQuoted (normalize s) = normalize s :=
    stripQuoted_id _ (fun c hm => (hc c hm).2.1)
  have h4 : nfdStrip (normalize s) = normalize s :=
    nfdStrip_id _ (fun c hm => ⟨(hc c hm).2.2.1, (hc c hm).2.2.2.1⟩)
  have h5 : keepFilter (normalize s) = normalize s :=
    keepFilter_id _ (fun c hm => (hc c hm).2.2.2.2)
  have h6 : collapseWs (normalize s) = normalize s := by
    unfold normalize
    exact collapseWs_pyStrip_collapseWs _
  have h7 : pyStrip (normalize s) = normalize s := by
    unfold normalize
    exact pyStrip_idem _
  calc normalize (normalize s)
      = pyStrip (collapseWs (keepFilter (nfdStrip (removeSuffixes
          (stripQuoted (pyLower (normalize s))))))) := rfl
    _ = normalize s := by rw [h1, h2, h, h4, h5, h6, h7]

/-- Concrete instantiation of `claim_C3_conditional_idempotence` on a
regular name. -/
theorem claim_C3_conditional_idempotence_witness :
    removeSuffixes (normalize "John Smith".data) = normalize "John Smith".data ∧
    normalize (normalize "John Smith".data) = normalize "John Smith".data :=
  ⟨by decide, claim_C3_conditional_idempotence "John Smith".data (by decide)⟩

end PhotoNameChecker
